import Mathlib

/-!
Shallow embedding of the ingestion/aggregation service in `src/a.py`.

The service keeps four persisted collections (users, per-creator post
catalogs, saved URLs, saved creator URLs) plus an in-process `HD_URLS`
cache.  Each HTTP handler loads the persisted documents, mutates them and
writes them back with `save_*`.  We model:

  * an upstream page response (`PageResp`) as the parsed JSON document the
    tikwm listing endpoint returns: `success` stands for
    `resp.get("msg") == "success"`, `videos` for
    `resp.get("data", {}).get("videos", [])`, `has_more` for
    `resp["data"].get("has_more", False)` and `cursor` for the optional
    `resp["data"].get("cursor", ...)` value (absent field = `none`);
  * upstream behaviour as a function from (call index, cursor sent) to
    `Option PageResp`; `none` models a request that does not complete with
    a parsed JSON document (network error / timeout / bad JSON), which in
    the Python code raises out of the handler;
  * Python's insertion-ordered dicts as association lists with
    update-in-place (`dictSet`);
  * UTC timestamps (`now_iso()`) as opaque strings supplied by the caller;
  * `save_users` / `save_posts` / `save_saved_user_urls` calls as an
    emitted list of `PersistEvent`s, so that how often and when a handler
    persists is observable in the model.
-/

set_option maxHeartbeats 1000000
set_option maxRecDepth 10000

namespace Bop

/-- One raw upstream item, as consumed by the handlers.  `video_id` is
read with `v["video_id"]`; `title`, `cover` and `images` are read with
`v.get(..., default)`, so the record here carries the value after
defaulting (absent title/cover = `""`, absent images = `[]`). -/
structure RawItem where
  video_id : String
  title : String
  cover : String
  images : List String
deriving DecidableEq, Repr

/-- One parsed response of the upstream listing endpoint. -/
structure PageResp where
  success : Bool
  videos : List RawItem
  has_more : Bool
  cursor : Option Nat
deriving DecidableEq, Repr

/-- A normalized catalog entry, exactly the dict built at
`posts[q].append({...})` in the single-creator branch of `index`. -/
structure Post where
  aweme_id : String
  text : String
  cover : String
  play_url : String
  play_count : Nat
  images : List String
deriving DecidableEq, Repr

/-- One record of the users map (`users[uname] = {...}`). -/
structure UserRec where
  password : String
  avatar : String
  fetched_at : String
deriving DecidableEq, Repr

/-- One entry of the curated saved-creator-URL collection
(`saved_user_urls`), keyed by the `(username, aweme_id)` pair. -/
structure SavedEntry where
  username : String
  aweme_id : String
  play_url : String
  hd_url : String
  images : List String
deriving DecidableEq, Repr

/-- The value returned by the `from_url` handler on success. -/
structure ResolvedLink where
  aweme_id : String
  play_url : String
  hd_url : String
  images : List String
deriving DecidableEq, Repr

/-- The two client-visible failures of the `from_url` handler. -/
inductive FromUrlError where
  | ResolutionFailed
  | IdentifierNotFound
deriving DecidableEq, Repr

/-- A `save_*` call made by a handler, with the document it wrote. -/
inductive PersistEvent where
  | saveUsers (users : List (String × UserRec))
  | savePosts (posts : List (String × List Post))
  | saveSavedUserUrls (saved : List SavedEntry)
deriving DecidableEq

/-- The default avatar constant of the source. -/
def DEFAULT_AVATAR : String :=
  "https://media.discordapp.net/attachments/1343576085098664020/1366204471633510530/IMG_20250427_190832_902.jpg?..."

/-- Shared stem of the two derived playback URL templates. -/
def URL_BASE : String := "https://www.tikwm.com/video/media/"

/-- SD playback URL template: `f"https://www.tikwm.com/video/media/play/{vid}.mp4"`. -/
def playUrl (vid : String) : String :=
  "https://www.tikwm.com/video/media/play/" ++ vid ++ ".mp4"

/-- HD playback URL template: `f"https://www.tikwm.com/video/media/hdplay/{vid}.mp4"`. -/
def hdplayUrl (vid : String) : String :=
  "https://www.tikwm.com/video/media/hdplay/" ++ vid ++ ".mp4"

/-- The single-creator item cap (`while len(all_posts) < 100` and
`all_posts[:100]`). -/
def MAX_ITEMS : Nat := 100

/-- The `count` request parameter sent to the listing endpoint. -/
def PAGE_SIZE : Nat := 50

/-- Default of the `limit` query parameter of `api_top`. -/
def API_TOP_DEFAULT : Nat := 20

/-- Hard-coded truncation of the `type == "top"` page view (`[:50]`). -/
def PAGE_TOP_LIMIT : Nat := 50

/-- Python dict lookup on an insertion-ordered dict modelled as an
association list. -/
def dictGet? {α : Type} : List (String × α) → String → Option α
  | [], _ => none
  | (k1, v1) :: rest, k => if k1 = k then some v1 else dictGet? rest k

/-- Python dict assignment `d[k] = v`: update in place when the key is
present (keeping its position), append at the end otherwise. -/
def dictSet {α : Type} : List (String × α) → String → α → List (String × α)
  | [], k, v => [(k, v)]
  | (k1, v1) :: rest, k, v =>
    if k1 = k then (k, v) :: rest else (k1, v1) :: dictSet rest k v

/-- The single-creator pagination loop of `index` (`while len(all_posts)
< 100: ...`), with an explicit structural fuel.  One recursive descent
appends at least one item, so as long as `fuel ≥ maxItems - acc.length`
the `fuel = 0` clause returns exactly what the loop-condition exit
returns and the function is the loop.  The returned `Nat` counts the
upstream requests issued; a `none` first component is a page request
raising out of the loop. -/
def fetchGo (up : Nat → Nat → Option PageResp) (maxItems : Nat) :
    Nat → Nat → Nat → List RawItem → Option (List RawItem) × Nat
  | 0, callIdx, _cursor, acc => (some acc, callIdx)
  | fuel + 1, callIdx, cursor, acc =>
    if acc.length < maxItems then
      match up callIdx cursor with
      | none => (none, callIdx + 1)
      | some resp =>
        if resp.success = false then (some acc, callIdx + 1)
        else
          match resp.videos with
          | [] => (some acc, callIdx + 1)
          | v :: vs =>
            if resp.has_more = false then (some (acc ++ v :: vs), callIdx + 1)
            else
              fetchGo up maxItems fuel (callIdx + 1) (resp.cursor.getD cursor)
                (acc ++ v :: vs)
    else (some acc, callIdx)

/-- `fetch_all` = the single-creator pagination loop started at cursor 0
with an empty accumulator; fuel `MAX_ITEMS` is enough because every
continuing iteration adds at least one item while the length is below
`MAX_ITEMS`. -/
def fetch_all (up : Nat → Nat → Option PageResp) : Option (List RawItem) × Nat :=
  fetchGo up MAX_ITEMS MAX_ITEMS 0 0 []

/-- The batch-path pagination loop (`while True: ...` in the multi-user
branch of `index`): same page handling, but no item cap.  The loop is
unbounded, so the model takes a fuel horizon; running out of fuel yields
`(none, _)`, i.e. the request is treated as never completing normally,
like an in-flight exception. -/
def batchFetchGo (up : Nat → Nat → Option PageResp) :
    Nat → Nat → Nat → List RawItem → Option (List RawItem) × Nat
  | 0, callIdx, _cursor, _acc => (none, callIdx)
  | fuel + 1, callIdx, cursor, acc =>
    match up callIdx cursor with
    | none => (none, callIdx + 1)
    | some resp =>
      if resp.success = false then (some acc, callIdx + 1)
      else
        match resp.videos with
        | [] => (some acc, callIdx + 1)
        | v :: vs =>
          if resp.has_more = false then (some (acc ++ v :: vs), callIdx + 1)
          else
            batchFetchGo up fuel (callIdx + 1) (resp.cursor.getD cursor)
              (acc ++ v :: vs)

/-- Normalization of one raw item into a catalog entry, exactly the dict
appended to `posts[q]` in the single-creator branch (play count always
initialized to 0). -/
def normalizePost (v : RawItem) : Post :=
  { aweme_id := v.video_id
    text := v.title
    cover := v.cover
    play_url := playUrl v.video_id
    play_count := 0
    images := v.images }

/-- Create-or-touch of a creator record: `users[uname] = {...}` when
absent, `users[uname]["fetched_at"] = now_iso()` when present. -/
def touchUser (users : List (String × UserRec)) (q t : String) :
    List (String × UserRec) :=
  match dictGet? users q with
  | none => dictSet users q { password := "", avatar := DEFAULT_AVATAR, fetched_at := t }
  | some u => dictSet users q { u with fetched_at := t }

/-- The duplicate test of the saved-creator-URL collection:
`any(u["username"] == uname and u["aweme_id"] == vid for u in saved)`. -/
def savedHasPair (saved : List SavedEntry) (uname vid : String) : Bool :=
  saved.any (fun u => u.username == uname && u.aweme_id == vid)

/-- One item of the batch loop body: build the entry and prepend it
(`saved_user_urls.insert(0, entry)`) unless the `(username, aweme_id)`
pair is already present. -/
def batchInsert (saved : List SavedEntry) (uname : String) (v : RawItem) :
    List SavedEntry :=
  let entry : SavedEntry :=
    { username := uname
      aweme_id := v.video_id
      play_url := playUrl v.video_id
      hd_url := hdplayUrl v.video_id
      images := v.images }
  if savedHasPair saved uname v.video_id then saved else entry :: saved

/-- Processing of one username inside the multi-user branch: touch the
creator record, run the unbounded pagination loop, then fold the fetched
items into the curated collection.  A page request that raises (or a
fetch that does not finish within the fuel horizon) aborts the whole
request: `none`. -/
def batchOne (up : String → Nat → Nat → Option PageResp) (fuel : Nat)
    (t uname : String)
    (acc : List (String × UserRec) × List SavedEntry) :
    Option (List (String × UserRec) × List SavedEntry) :=
  let users1 := touchUser acc.1 uname t
  match batchFetchGo (up uname) fuel 0 0 [] with
  | (none, _) => none
  | (some items, _) =>
    some (users1, items.foldl (fun s v => batchInsert s uname v) acc.2)

/-- The `for uname in usernames:` loop of the multi-user branch. -/
def runBatch (up : String → Nat → Nat → Option PageResp) (fuel : Nat)
    (t : String) :
    List String → List (String × UserRec) × List SavedEntry →
    Option (List (String × UserRec) × List SavedEntry)
  | [], acc => some acc
  | uname :: rest, acc =>
    match batchOne up fuel t uname acc with
    | none => none
    | some acc2 => runBatch up fuel t rest acc2

/-- Split a character list at every occurrence of `c` (the semantics of
Python's `str.split(sep)` for a one-character separator, and of Lean's
`String.splitOn`, here written structurally so it evaluates in the
kernel). -/
def splitOnChar (c : Char) : List Char → List (List Char)
  | [] => [[]]
  | x :: xs =>
    if x = c then [] :: splitOnChar c xs
    else
      match splitOnChar c xs with
      | [] => [[x]]
      | s :: ss => (x :: s) :: ss

/-- The whitespace characters Python's `str.strip()` removes (ASCII
range). -/
def isPySpace (c : Char) : Bool :=
  c = ' ' || c = '\t' || c = '\n' || c = '\r' || c = '\x0b' || c = '\x0c'

/-- `str.strip()`: drop leading and trailing whitespace. -/
def trimChars (l : List Char) : List Char :=
  ((l.dropWhile isPySpace).reverse.dropWhile isPySpace).reverse

/-- `[u.strip() for u in q.split(",") if u.strip()]`. -/
def parseUsernames (q : String) : List String :=
  (((splitOnChar ',' q.toList).map (fun s => String.mk (trimChars s))).filter
    (fun s => s ≠ ""))

/-- The shared mutable/persisted state the modelled handlers touch:
the three persisted documents plus the process-wide `HD_URLS` cache. -/
structure AppState where
  users : List (String × UserRec)
  posts : List (String × List Post)
  savedUserUrls : List SavedEntry
  hdUrls : List (String × String)
deriving DecidableEq

/-- The `index` handler restricted to its ingestion effect, for a request
with query `q` (absent `q` modelled as `""`, which Python's `if q:` also
skips).  More than one parsed username triggers the multi-user branch;
otherwise a non-empty `q` runs the single-creator branch.  The second
component lists the `save_*` calls the handler made, in order.  A page
request that raises aborts the handler before any `save_*` call, so the
persisted state (and `HD_URLS`, which the single branch only writes
after its fetch loop finished) is returned unchanged with no events. -/
def index_q (up : String → Nat → Nat → Option PageResp) (fuel : Nat)
    (t q : String) (st : AppState) : AppState × List PersistEvent :=
  let usernames := parseUsernames q
  if 1 < usernames.length then
    match runBatch up fuel t usernames (st.users, st.savedUserUrls) with
    | none => (st, [])
    | some (users2, saved2) =>
      ({ st with users := users2, savedUserUrls := saved2 },
       [.saveUsers users2, .saveSavedUserUrls saved2])
  else if q ≠ "" then
    let users1 := touchUser st.users q t
    let posts1 := dictSet st.posts q []
    match fetch_all (up q) with
    | (none, _) => (st, [])
    | (some items, _) =>
      let finalItems := items.take 100
      let hd2 := finalItems.foldl
        (fun h v => dictSet h v.video_id (hdplayUrl v.video_id)) st.hdUrls
      let catalog := finalItems.map normalizePost
      let posts2 := dictSet posts1 q catalog
      ({ st with users := users1, posts := posts2, hdUrls := hd2 },
       [.savePosts posts2, .saveUsers users1])
  else (st, [])

/-- The `post_saved_user_url` handler: insert-if-absent at the front,
keyed by the `(username, aweme_id)` pair. -/
def post_saved_user_url (saved : List SavedEntry) (d : SavedEntry) :
    List SavedEntry :=
  if savedHasPair saved d.username d.aweme_id then saved else d :: saved

/-- The inner scan of `api_view` / `download`: first post of one
creator's list with the requested id. -/
def findInList (l : List Post) (vid : String) : Option Post :=
  l.find? (fun p => p.aweme_id == vid)

/-- `find_by_id`: scan all creators' catalogs in dict order and return
the first post whose `aweme_id` matches (the scan both `download` and
`api_view` perform). -/
def find_by_id : List (String × List Post) → String → Option Post
  | [], _ => none
  | (_, l) :: rest, vid =>
    match findInList l vid with
    | some p => some p
    | none => find_by_id rest vid

/-- Increment of one creator's list: bump the first matching post by one
and return the new count together with the updated list. -/
def incInList : List Post → String → Option (Nat × List Post)
  | [], _ => none
  | p :: ps, vid =>
    if p.aweme_id = vid then
      some (p.play_count + 1, { p with play_count := p.play_count + 1 } :: ps)
    else
      match incInList ps vid with
      | some (n, ps2) => some (n, p :: ps2)
      | none => none

/-- The `api_view` handler's state change: locate the post by identifier
across all creators' catalogs, increment its play count by one and
return the new count with the updated catalogs; `none` = HTTP 404. -/
def increment_play_count : List (String × List Post) → String →
    Option (Nat × List (String × List Post))
  | [], _ => none
  | (u, l) :: rest, vid =>
    match incInList l vid with
    | some (n, l2) => some (n, (u, l2) :: rest)
    | none =>
      match increment_play_count rest vid with
      | some (n, rest2) => some (n, (u, l) :: rest2)
      | none => none

/-- One `api_view` request as a state transformer (a failed lookup
returns 404 and leaves the stored posts unchanged). -/
def api_view_step (posts : List (String × List Post)) (vid : String) :
    List (String × List Post) :=
  match increment_play_count posts vid with
  | some (_, posts2) => posts2
  | none => posts

/-- A sequence of `api_view` requests. -/
def applyViews (posts : List (String × List Post)) (ops : List String) :
    List (String × List Post) :=
  ops.foldl api_view_step posts

/-- Python's `max(ups, key=lambda p: p.get("play_count", 0))`: fold that
replaces the current best only on a strictly larger key, hence returns
the first maximal element. -/
def maxByPlay (p : Post) (ps : List Post) : Post :=
  ps.foldl (fun best x => if best.play_count < x.play_count then x else best) p

/-- Stable insertion into a descending-by-play-count list: the new
element goes before the first strictly smaller one, i.e. after all
earlier elements with an equal or larger count. -/
def insertDesc (x : Post) : List Post → List Post
  | [] => [x]
  | y :: ys => if y.play_count ≤ x.play_count then x :: y :: ys else y :: insertDesc x ys

/-- Stable descending sort by play count.  Python's
`sorted(top, key=..., reverse=True)` is a stable descending sort (equal
keys keep their input order); this insertion sort has the same
specification, since `insertDesc` puts the inserted element — which
stands before the whole sorted suffix in the input — before every
equal-count element of that suffix. -/
def sortDescByPlay : List Post → List Post
  | [] => []
  | x :: xs => insertDesc x (sortDescByPlay xs)

/-- The top view shared by `api_top` and the `type == "top"` page branch:
one `max(...)` per creator with a non-empty list, then a stable
descending sort by play count (Python's `sorted(..., reverse=True)` is
stable, as is this insertion sort) truncated to `limit`. -/
def topPosts (posts : List (String × List Post)) (limit : Nat) : List Post :=
  let tops := posts.filterMap (fun pr =>
    match pr.2 with
    | [] => none
    | p :: ps => some (maxByPlay p ps))
  (sortDescByPlay tops).take limit

/-- The `api_top` handler: query parameter `limit` defaulting to 20. -/
def api_top (posts : List (String × List Post)) (limit : Option Nat) : List Post :=
  topPosts posts (limit.getD API_TOP_DEFAULT)

/-- The `type == "top"` branch of the `index` page: truncation
hard-coded to 50. -/
def index_top_view (posts : List (String × List Post)) : List Post :=
  topPosts posts PAGE_TOP_LIMIT

/-- The `type == "latest"` branch of the `index` page and `api_latest`:
the first element of every creator's non-empty list. -/
def latest_per_creator (posts : List (String × List Post)) : List Post :=
  posts.filterMap (fun pr =>
    match pr.2 with
    | [] => none
    | p :: _ => some p)

/-- The path component of `urlparse(url)` for the URLs at hand: drop the
scheme through the first `"://"`, drop the authority up to the first
`/` (stopping at `?` or `#`, which begin query/fragment), then keep the
path up to the first `?` or `#`.  A string without `"://"` is all path
up to `?`/`#`, as `urlparse` treats a scheme-less, slash-less string. -/
def dropThroughSchemeSep : List Char → Option (List Char)
  | [] => none
  | ':' :: '/' :: '/' :: rest => some rest
  | _ :: rest => dropThroughSchemeSep rest

/-- The path component extraction described above `dropThroughSchemeSep`
(which yields the characters after the first `"://"`, when one
occurs). -/
def pathOfUrl (url : String) : String :=
  match dropThroughSchemeSep url.toList with
  | some afterScheme =>
    let tailChars := afterScheme.dropWhile
      (fun c => c != '/' && c != '?' && c != '#')
    String.mk (tailChars.takeWhile (fun c => c != '?' && c != '#'))
  | none => String.mk (url.toList.takeWhile (fun c => c != '?' && c != '#'))

/-- `[p for p in urlparse(final).path.split("/") if p]`. -/
def pathSegments (url : String) : List String :=
  ((splitOnChar '/' (pathOfUrl url).toList).map String.mk).filter
    (fun s => s ≠ "")

/-- The scan of `from_url`: walk the segments and return the segment
immediately following the first `"video"` segment that has one. -/
def extractAwemeId : List String → Option String
  | [] => none
  | p :: rest =>
    if p = "video" then
      match rest with
      | next :: _ => some next
      | [] => none
    else extractAwemeId rest

/-- The `from_url` handler.  `finalUrl` is the URL after following
redirects (`none` = the GET raised, HTTP 400 "Failed to resolve URL");
`auxImages` is the outcome of the auxiliary gallery lookup (`none` = it
raised, degrading to `[]`; `some l` = the parsed image list, absent
field already defaulted to `[]`).  On success the handler registers the
HD URL in the cache, so the updated cache is returned alongside the
response body.  The `if not aweme_id:` falsiness check of the source is
the extra `aid = ""` test. -/
def from_url (finalUrl : Option String) (auxImages : Option (List String))
    (hdUrls : List (String × String)) :
    Except FromUrlError (ResolvedLink × List (String × String)) :=
  match finalUrl with
  | none => .error .ResolutionFailed
  | some final =>
    match extractAwemeId (pathSegments final) with
    | none => .error .IdentifierNotFound
    | some aid =>
      if aid = "" then .error .IdentifierNotFound
      else
        let images := auxImages.getD []
        let hd := hdplayUrl aid
        .ok ({ aweme_id := aid, play_url := playUrl aid, hd_url := hd,
               images := images },
             dictSet hdUrls aid hd)

/-- The modelled requests that mutate shared state. -/
inductive Op where
  | indexQ (up : String → Nat → Nat → Option PageResp) (fuel : Nat) (t q : String)
  | postSavedUserUrl (d : SavedEntry)
  | apiView (vid : String)
  | fromUrl (finalUrl : Option String) (auxImages : Option (List String))

/-- One request against the shared state. -/
def step (st : AppState) : Op → AppState
  | .indexQ up fuel t q => (index_q up fuel t q st).1
  | .postSavedUserUrl d =>
    { st with savedUserUrls := post_saved_user_url st.savedUserUrls d }
  | .apiView vid => { st with posts := api_view_step st.posts vid }
  | .fromUrl finalUrl aux =>
    match from_url finalUrl aux st.hdUrls with
    | .error _ => st
    | .ok (_, hd2) => { st with hdUrls := hd2 }

/-- A sequence of requests. -/
def runOps (st : AppState) (ops : List Op) : AppState :=
  ops.foldl step st

/-- The empty initial store (every persisted document at its
`load_json` default, empty `HD_URLS`). -/
def initialState : AppState :=
  { users := [], posts := [], savedUserUrls := [], hdUrls := [] }

/-- Key pairs of the curated saved-creator-URL collection. -/
def savedPairs (saved : List SavedEntry) : List (String × String) :=
  saved.map (fun e => (e.username, e.aweme_id))

/-- The curated collection holds no two entries with the same
`(creator, content_id)` pair. -/
def pairsNodup (saved : List SavedEntry) : Prop :=
  (savedPairs saved).Nodup

/-- Every cache entry is the fixed hdplay template applied to its key. -/
def hdConsistent (hd : List (String × String)) : Prop :=
  ∀ kv ∈ hd, kv.2 = hdplayUrl kv.1

/-- All posts of all creators, in scan order. -/
def allPosts (posts : List (String × List Post)) : List Post :=
  posts.foldr (fun pr acc => pr.2 ++ acc) []

/-- Whether a persist event is a write of the curated
saved-creator-URL collection. -/
def isSavedSave : PersistEvent → Bool
  | .saveSavedUserUrls _ => true
  | _ => false

/-! ### Concrete fixtures used by witnesses and counterexamples -/

/-- A raw item with only an identifier. -/
def itemOf (vid : String) : RawItem :=
  { video_id := vid, title := "", cover := "", images := [] }

/-- Upstream behaviour that answers every request with a one-item page
that has more pages: pages far smaller than the requested `count`. -/
def c1Up : Nat → Nat → Option PageResp := fun i c =>
  some { success := true, videos := [itemOf (toString i)], has_more := true,
         cursor := some (c + 1) }

/-- Upstream behaviour that always answers with a parsed non-success
document (`msg != "success"`). -/
def failPageUp : Nat → Nat → Option PageResp := fun _ _ =>
  some { success := false, videos := [], has_more := false, cursor := none }

/-- Upstream behaviour whose every request fails at the network level
(the GET raises before producing a parsed document). -/
def c2Up : Nat → Nat → Option PageResp := fun _ _ => none

/-- Upstream behaviour delivering one successful single-item page and
then closing. -/
def onePageUp (vid : String) : Nat → Nat → Option PageResp := fun _ _ =>
  some { success := true, videos := [itemOf vid], has_more := false,
         cursor := none }

/-- Per-username upstream behaviour for batch fixtures: one page with
one item per creator. -/
def batchUp : String → Nat → Nat → Option PageResp := fun uname _ _ =>
  some { success := true, videos := [itemOf ("v-" ++ uname)], has_more := false,
         cursor := none }

/-- Catalog fixtures for the top view example. -/
def post3 : Post :=
  { aweme_id := "a1", text := "", cover := "", play_url := playUrl "a1",
    play_count := 3, images := [] }

/-- See `post3`. -/
def post7 : Post :=
  { aweme_id := "a2", text := "", cover := "", play_url := playUrl "a2",
    play_count := 7, images := [] }

/-- See `post3`. -/
def post5 : Post :=
  { aweme_id := "b1", text := "", cover := "", play_url := playUrl "b1",
    play_count := 5, images := [] }

/-- A curated entry fixture matching what the batch path would build
for creator `"a"`. -/
def savedEntryA : SavedEntry :=
  { username := "a", aweme_id := "v-a", play_url := playUrl "v-a",
    hd_url := hdplayUrl "v-a", images := [] }

/-- See `savedEntryA`. -/
def savedEntryB : SavedEntry :=
  { username := "b", aweme_id := "v-b", play_url := playUrl "v-b",
    hd_url := hdplayUrl "v-b", images := [] }

/-- The users map `runBatch batchUp` produces from the empty store. -/
def c8u2 : List (String × UserRec) :=
  [("a", { password := "", avatar := DEFAULT_AVATAR, fetched_at := "t" }),
   ("b", { password := "", avatar := DEFAULT_AVATAR, fetched_at := "t" })]

/-- The curated collection `runBatch batchUp` produces from the empty
store. -/
def c8s2 : List SavedEntry := [savedEntryB, savedEntryA]

/-- A store already holding one curated entry, for the C4 witness. -/
def c4State : AppState :=
  { users := [], posts := [], savedUserUrls := [savedEntryA], hdUrls := [] }

/-- The spec's concrete resolution example. -/
def c7Url : String := "https://example.com/@user/video/7123456789012345678?x=1"

/-- The resolved link the example produces. -/
def c7Link : ResolvedLink :=
  { aweme_id := "7123456789012345678",
    play_url := playUrl "7123456789012345678",
    hd_url := hdplayUrl "7123456789012345678",
    images := [] }

/-! ### Association-list (Python dict) lemmas -/

theorem dictGet_dictSet {α : Type} (d : List (String × α)) (k : String) (v : α)
    (k' : String) :
    dictGet? (dictSet d k v) k' = if k' = k then some v else dictGet? d k' := by
  induction d with
  | nil =>
    by_cases h : k' = k
    · subst h; simp [dictSet, dictGet?]
    · have h2 : ¬ k = k' := fun hh => h hh.symm
      simp [dictSet, dictGet?, h, h2]
  | cons hd tl ih =>
    obtain ⟨k1, v1⟩ := hd
    by_cases h1 : k1 = k
    · subst h1
      by_cases h2 : k' = k1
      · subst h2; simp [dictSet, dictGet?]
      · have h2' : ¬ k1 = k' := fun hh => h2 hh.symm
        simp [dictSet, dictGet?, h2, h2']
    · by_cases h2 : k' = k1
      · subst h2
        have hk : ¬ k' = k := h1
        simp [dictSet, dictGet?, h1, hk]
      · have h2' : ¬ k1 = k' := fun hh => h2 hh.symm
        simp [dictSet, dictGet?, h1, h2, h2', ih]

theorem dictSet_dictSet {α : Type} (d : List (String × α)) (k : String)
    (v w : α) : dictSet (dictSet d k v) k w = dictSet d k w := by
  induction d with
  | nil => simp [dictSet]
  | cons hd tl ih =>
    obtain ⟨k1, v1⟩ := hd
    by_cases h1 : k1 = k
    · simp [dictSet, h1]
    · simp [dictSet, h1, ih]

/-! ### Pagination-loop lemmas -/

/-- When the accumulator has already reached the cap, the loop makes no
further request. -/
theorem fetchGo_stop (up : Nat → Nat → Option PageResp) (m : Nat) :
    ∀ fuel ci cur acc, ¬ acc.length < m →
      fetchGo up m fuel ci cur acc = (some acc, ci) := by
  intro fuel ci cur acc h
  cases fuel with
  | zero => simp [fetchGo]
  | succ f => simp [fetchGo, h]

/-- A page request that raises ends the handler. -/
theorem fetchGo_none (up : Nat → Nat → Option PageResp) (m f ci cur : Nat)
    (acc : List RawItem) (hlt : acc.length < m) (hup : up ci cur = none) :
    fetchGo up m (f + 1) ci cur acc = (none, ci + 1) := by
  simp [fetchGo, hlt, hup]

/-- A parsed non-success response breaks the loop with the accumulator. -/
theorem fetchGo_break_fail (up : Nat → Nat → Option PageResp) (m f ci cur : Nat)
    (acc : List RawItem) (r : PageResp) (hlt : acc.length < m)
    (hup : up ci cur = some r) (hs : r.success = false) :
    fetchGo up m (f + 1) ci cur acc = (some acc, ci + 1) := by
  simp [fetchGo, hlt, hup, hs]

/-- An empty page breaks the loop with the accumulator. -/
theorem fetchGo_break_empty (up : Nat → Nat → Option PageResp) (m f ci cur : Nat)
    (acc : List RawItem) (r : PageResp) (hlt : acc.length < m)
    (hup : up ci cur = some r) (hv : r.videos = []) :
    fetchGo up m (f + 1) ci cur acc = (some acc, ci + 1) := by
  rcases hs : r.success with _ | _
  · simp [fetchGo, hlt, hup, hs]
  · simp [fetchGo, hlt, hup, hs, hv]

/-- A successful page without a further-pages flag appends its items and
breaks the loop. -/
theorem fetchGo_break_nomore (up : Nat → Nat → Option PageResp)
    (m f ci cur : Nat) (acc : List RawItem) (r : PageResp) (v : RawItem)
    (vs : List RawItem) (hlt : acc.length < m) (hup : up ci cur = some r)
    (hs : r.success = true) (hv : r.videos = v :: vs)
    (hm : r.has_more = false) :
    fetchGo up m (f + 1) ci cur acc = (some (acc ++ v :: vs), ci + 1) := by
  simp [fetchGo, hlt, hup, hs, hv, hm]

/-- A successful page with the further-pages flag appends its items and
continues at the upstream-supplied cursor. -/
theorem fetchGo_step_cont (up : Nat → Nat → Option PageResp)
    (m f ci cur : Nat) (acc : List RawItem) (r : PageResp) (v : RawItem)
    (vs : List RawItem) (hlt : acc.length < m) (hup : up ci cur = some r)
    (hs : r.success = true) (hv : r.videos = v :: vs)
    (hm : r.has_more = true) :
    fetchGo up m (f + 1) ci cur acc =
      fetchGo up m f (ci + 1) (r.cursor.getD cur) (acc ++ v :: vs) := by
  simp [fetchGo, hlt, hup, hs, hv, hm]

/-- Every upstream request made by the single-creator loop either ends
pagination or contributes at least one item towards the `maxItems` cap,
so the number of requests is bounded by the cap (plus the calls already
made). -/
theorem fetchGo_calls_le (up : Nat → Nat → Option PageResp) (m : Nat) :
    ∀ fuel ci cur acc, acc.length < m →
      (fetchGo up m fuel ci cur acc).2 ≤ ci + (m - acc.length) := by
  intro fuel
  induction fuel with
  | zero =>
    intro ci cur acc hlt
    simp [fetchGo]
  | succ f ih =>
    intro ci cur acc hlt
    simp only [fetchGo, if_pos hlt]
    match hup : up ci cur with
    | none => simpa using by omega
    | some resp =>
      by_cases hs : resp.success = false
      · simp [hs]; omega
      · simp only [hs, if_false]
        match hv : resp.videos with
        | [] => simpa using by omega
        | v :: vs =>
          by_cases hm : resp.has_more = false
          · simp [hm]; omega
          · simp only [hm, if_false]
            by_cases hlt2 : (acc ++ v :: vs).length < m
            · have := ih (ci + 1) (resp.cursor.getD cur) (acc ++ v :: vs) hlt2
              refine le_trans this ?_
              simp only [List.length_append, List.length_cons]
              omega
            · simp [fetchGo_stop up m f (ci + 1) (resp.cursor.getD cur) _ hlt2]
              omega

/-- Total calls of the single-creator loop never exceed the item cap. -/
theorem fetch_all_calls_le (up : Nat → Nat → Option PageResp) :
    (fetch_all up).2 ≤ MAX_ITEMS := by
  have h := fetchGo_calls_le up MAX_ITEMS MAX_ITEMS 0 0 [] (by simp [MAX_ITEMS])
  simpa [fetch_all] using h

/-- As long as every page request completes with a parsed document, the
loop completes normally (no exception escapes). -/
theorem fetchGo_isSome (up : Nat → Nat → Option PageResp) (m : Nat)
    (htot : ∀ i c, (up i c).isSome) :
    ∀ fuel ci cur acc, (fetchGo up m fuel ci cur acc).1.isSome := by
  intro fuel
  induction fuel with
  | zero => intro ci cur acc; simp [fetchGo]
  | succ f ih =>
    intro ci cur acc
    by_cases hlt : acc.length < m
    · match hup : up ci cur with
      | none => exact absurd (congrArg Option.isSome hup) (by simp [htot ci cur])
      | some resp =>
        by_cases hs : resp.success = false
        · simp [fetchGo_break_fail up m f ci cur acc resp hlt hup hs]
        · match hv : resp.videos with
          | [] => simp [fetchGo_break_empty up m f ci cur acc resp hlt hup hv]
          | v :: vs =>
            have hs' : resp.success = true := by
              cases h : resp.success
              · exact absurd h hs
              · rfl
            by_cases hm : resp.has_more = false
            · simp [fetchGo_break_nomore up m f ci cur acc resp v vs hlt hup hs' hv hm]
            · have hm' : resp.has_more = true := by
                cases h : resp.has_more
                · exact absurd h hm
                · rfl
              rw [fetchGo_step_cont up m f ci cur acc resp v vs hlt hup hs' hv hm']
              exact ih (ci + 1) (resp.cursor.getD cur) (acc ++ v :: vs)
    · simp [fetchGo_stop up m (f + 1) ci cur acc hlt]

/-- The single-creator branch of `index` under a successful fetch:
touch the creator, replace the catalog with the normalized truncated
fetch result, register every stored item's HD URL, persist posts then
users. -/
theorem index_q_single_eq (up : String → Nat → Nat → Option PageResp)
    (fuel : Nat) (t q : String) (st : AppState) (items : List RawItem) (n : Nat)
    (hq1 : ¬ 1 < (parseUsernames q).length) (hq2 : q ≠ "")
    (hf : fetch_all (up q) = (some items, n)) :
    index_q up fuel t q st =
      ({ st with
          users := touchUser st.users q t
          posts := dictSet st.posts q ((items.take 100).map normalizePost)
          hdUrls := (items.take 100).foldl
            (fun h v => dictSet h v.video_id (hdplayUrl v.video_id)) st.hdUrls },
       [.savePosts (dictSet st.posts q ((items.take 100).map normalizePost)),
        .saveUsers (touchUser st.users q t)]) := by
  simp [index_q, hq1, hq2, hf, dictSet_dictSet]

/-- The single-creator branch under a raising fetch: the handler aborts
with nothing persisted. -/
theorem index_q_single_none (up : String → Nat → Nat → Option PageResp)
    (fuel : Nat) (t q : String) (st : AppState) (n : Nat)
    (hq1 : ¬ 1 < (parseUsernames q).length) (hq2 : q ≠ "")
    (hf : fetch_all (up q) = (none, n)) :
    index_q up fuel t q st = (st, []) := by
  simp [index_q, hq1, hq2, hf]

/-- **C1 (amended).**  For every sequence of upstream pages, the
single-creator pagination loop (`max_items = 100`, requested page size
50) issues at most `max_items` upstream page requests — the stricter
`ceil(max_items/page_size) + 1` bound fails when pages carry fewer than
`page_size` items — and never stores more than `max_items` posts in the
creator's catalog, truncating the final page if necessary. -/
theorem c1_pagination_bounds :
    (∀ up : Nat → Nat → Option PageResp, (fetch_all up).2 ≤ MAX_ITEMS) ∧
    (∀ (up : String → Nat → Nat → Option PageResp) (fuel : Nat) (t q : String)
        (st : AppState) (items : List RawItem) (n : Nat),
      ¬ 1 < (parseUsernames q).length → q ≠ "" →
      fetch_all (up q) = (some items, n) →
      dictGet? (index_q up fuel t q st).1.posts q =
          some ((items.take MAX_ITEMS).map normalizePost) ∧
        ((items.take MAX_ITEMS).map normalizePost).length ≤ MAX_ITEMS) := by
  constructor
  · exact fetch_all_calls_le
  · intro up fuel t q st items n hq1 hq2 hf
    rw [index_q_single_eq up fuel t q st items n hq1 hq2 hf]
    constructor
    · simp [dictGet_dictSet, MAX_ITEMS]
    · simp only [List.length_map, List.length_take, MAX_ITEMS]
      omega

/-- Witness for C1: one single-item page for creator `"alice"`. -/
theorem c1_witness :
    dictGet? (index_q (fun _ => onePageUp "w1") 0 "t" "alice"
        initialState).1.posts "alice" =
        some (([itemOf "w1"].take MAX_ITEMS).map normalizePost) ∧
      (([itemOf "w1"].take MAX_ITEMS).map normalizePost).length ≤ MAX_ITEMS :=
  c1_pagination_bounds.2 (fun _ => onePageUp "w1") 0 "t" "alice" initialState
    [itemOf "w1"] 1 (by decide) (by decide) (by decide)

/-- **C1 counterexample.**  An upstream that answers every request with
a one-item page flagged `has_more` forces 100 requests, far above the
claimed `ceil(max_items / page_size) + 1 = 3`. -/
theorem c1_counterexample :
    (fetch_all c1Up).2 = 100 ∧
      ¬ ((fetch_all c1Up).2 ≤ (MAX_ITEMS + PAGE_SIZE - 1) / PAGE_SIZE + 1) := by
  constructor
  · decide
  · decide

/-- **C2 (amended).**  For every upstream behaviour whose page requests
each complete with a parsed response, pagination never raises: a
non-success response stops pagination early and the items accumulated so
far (possibly zero) are returned as a valid partial result.  A page
request that fails at the network level, however, propagates as an
exception and aborts the request with no partial result. -/
theorem c2_fetch_error_handling :
    (∀ up : Nat → Nat → Option PageResp,
        (∀ i c, (up i c).isSome) → (fetch_all up).1.isSome) ∧
    (∀ (up : Nat → Nat → Option PageResp) (r : PageResp),
        up 0 0 = some r → r.success = false → fetch_all up = (some [], 1)) ∧
    (∀ (up : Nat → Nat → Option PageResp) (r r2 : PageResp) (v : RawItem)
        (vs : List RawItem),
        up 0 0 = some r → r.success = true → r.videos = v :: vs →
        r.has_more = true → (v :: vs).length < MAX_ITEMS →
        up 1 (r.cursor.getD 0) = some r2 → r2.success = false →
        fetch_all up = (some (v :: vs), 2)) ∧
    (∀ up : Nat → Nat → Option PageResp, up 0 0 = none →
        fetch_all up = (none, 1)) := by
  refine ⟨?_, ?_, ?_, ?_⟩
  · intro up htot
    exact fetchGo_isSome up MAX_ITEMS htot MAX_ITEMS 0 0 []
  · intro up r hup hs
    have h := fetchGo_break_fail up 100 99 0 0 [] r (by simp) hup hs
    simpa [fetch_all, MAX_ITEMS] using h
  · intro up r r2 v vs hup hs hv hm hlen hup2 hs2
    have h1 := fetchGo_step_cont up 100 99 0 0 [] r v vs (by simp) hup hs hv hm
    have h2 := fetchGo_break_fail up 100 98 1 (r.cursor.getD 0) ([] ++ v :: vs)
      r2 (by simpa [MAX_ITEMS] using hlen) hup2 hs2
    have : fetch_all up = fetchGo up 100 (99 + 1) 0 0 [] := by
      simp [fetch_all, MAX_ITEMS]
    rw [this, h1]
    simpa using h2
  · intro up hup
    have h := fetchGo_none up 100 99 0 0 [] (by simp) hup
    simpa [fetch_all, MAX_ITEMS] using h

/-- Witness for C2: a parsed non-success first page yields the empty
partial result after one call. -/
theorem c2_witness : fetch_all failPageUp = (some [], 1) :=
  c2_fetch_error_handling.2.1 failPageUp
    { success := false, videos := [], has_more := false, cursor := none }
    (by decide) (by decide)

/-- **C2 counterexample.**  When the very first page request fails at
the network level, the fetcher does not return a partial result: the
exception escapes (`none`), falsifying "the pagination fetcher never
raises". -/
theorem c2_counterexample : fetch_all c2Up = (none, 1) := by decide

/-- A first page that signals failure or carries zero items ends the
fetch immediately with an empty result after one call. -/
theorem fetch_all_first_break (up : Nat → Nat → Option PageResp)
    (r : PageResp) (hup : up 0 0 = some r)
    (hfail : r.success = false ∨ r.videos = []) :
    fetch_all up = (some [], 1) := by
  rcases hfail with hs | hv
  · have h := fetchGo_break_fail up 100 99 0 0 [] r (by simp) hup hs
    simpa [fetch_all, MAX_ITEMS] using h
  · have h := fetchGo_break_empty up 100 99 0 0 [] r (by simp) hup hv
    simpa [fetch_all, MAX_ITEMS] using h

/-- The created-or-touched creator record carries the supplied
timestamp. -/
theorem touchUser_get (users : List (String × UserRec)) (q t : String) :
    ∃ u : UserRec, dictGet? (touchUser users q t) q = some u ∧
      u.fetched_at = t := by
  unfold touchUser
  cases h : dictGet? users q with
  | none =>
    refine ⟨{ password := "", avatar := DEFAULT_AVATAR, fetched_at := t }, ?_, rfl⟩
    simp [dictGet_dictSet]
  | some u =>
    refine ⟨{ u with fetched_at := t }, ?_, rfl⟩
    simp [dictGet_dictSet]

/-- **C10.**  Single-creator ingestion clears the stored catalog before
fetching: when the very first upstream page signals failure or returns
zero items, the persisted catalog for that creator becomes empty —
whatever posts (and play counts) were stored before are erased, and the
emptied document is what gets persisted. -/
theorem c10_reset_on_failed_first_page :
    ∀ (up : String → Nat → Nat → Option PageResp) (fuel : Nat) (t q : String)
      (st : AppState) (r : PageResp),
      ¬ 1 < (parseUsernames q).length → q ≠ "" →
      up q 0 0 = some r → (r.success = false ∨ r.videos = []) →
      dictGet? (index_q up fuel t q st).1.posts q = some [] ∧
        (index_q up fuel t q st).2 =
          [.savePosts (dictSet st.posts q []),
           .saveUsers (touchUser st.users q t)] := by
  intro up fuel t q st r hq1 hq2 hup hfail
  have hf : fetch_all (up q) = (some [], 1) :=
    fetch_all_first_break (up q) r hup hfail
  rw [index_q_single_eq up fuel t q st [] 1 hq1 hq2 hf]
  simp [dictGet_dictSet]

/-- Witness for C10: the catalog of `"alice"`, previously holding a
post, is emptied by an ingestion whose first page is non-success. -/
theorem c10_witness :
    dictGet? (index_q (fun _ => failPageUp) 0 "t" "alice"
        { users := [], posts := [("alice", [post3])], savedUserUrls := [],
          hdUrls := [] }).1.posts "alice" = some [] :=
  (c10_reset_on_failed_first_page (fun _ => failPageUp) 0 "t" "alice"
    { users := [], posts := [("alice", [post3])], savedUserUrls := [],
      hdUrls := [] }
    { success := false, videos := [], has_more := false, cursor := none }
    (by decide) (by decide) (by decide) (Or.inl (by decide))).1

/-- **C3.**  Single-creator ingestion is idempotent on the post set:
running it twice against an unchanged upstream fixture leaves the
creator's catalog list (hence the set of content identifiers) unchanged,
while `fetched_at` advances to the second run's clock and every post's
play count is 0 — the list is replaced wholesale, never merged. -/
theorem c3_idempotent_reingest :
    ∀ (up : String → Nat → Nat → Option PageResp) (fuel : Nat)
      (t1 t2 q : String) (st : AppState) (items : List RawItem) (n : Nat),
      ¬ 1 < (parseUsernames q).length → q ≠ "" →
      fetch_all (up q) = (some items, n) →
      dictGet? ((index_q up fuel t2 q (index_q up fuel t1 q st).1).1).posts q =
          dictGet? ((index_q up fuel t1 q st).1).posts q ∧
        dictGet? ((index_q up fuel t1 q st).1).posts q =
          some ((items.take MAX_ITEMS).map normalizePost) ∧
        (∃ u2 : UserRec,
          dictGet? ((index_q up fuel t2 q (index_q up fuel t1 q st).1).1).users q =
              some u2 ∧ u2.fetched_at = t2) ∧
        (∀ l, dictGet? ((index_q up fuel t1 q st).1).posts q = some l →
          ∀ p ∈ l, p.play_count = 0) := by
  intro up fuel t1 t2 q st items n hq1 hq2 hf
  rw [index_q_single_eq up fuel t1 q st items n hq1 hq2 hf]
  rw [index_q_single_eq up fuel t2 q _ items n hq1 hq2 hf]
  refine ⟨?_, ?_, ?_, ?_⟩
  · simp [dictGet_dictSet]
  · simp [dictGet_dictSet, MAX_ITEMS]
  · simpa using touchUser_get _ q t2
  · intro l hl p hp
    simp [dictGet_dictSet] at hl
    subst hl
    obtain ⟨v, _, rfl⟩ := List.mem_map.mp (List.take_subset _ _ hp)
    rfl

/-- Witness for C3 at a concrete one-page fixture. -/
theorem c3_witness :
    dictGet? ((index_q (fun _ => onePageUp "w1") 0 "t2" "alice"
          (index_q (fun _ => onePageUp "w1") 0 "t1" "alice" initialState).1).1).posts
        "alice" =
      dictGet? ((index_q (fun _ => onePageUp "w1") 0 "t1" "alice"
          initialState).1).posts "alice" :=
  (c3_idempotent_reingest (fun _ => onePageUp "w1") 0 "t1" "t2" "alice"
    initialState [itemOf "w1"] 1 (by decide) (by decide) (by decide)).1

/-! ### Curated-collection lemmas -/

theorem savedHasPair_iff (saved : List SavedEntry) (u i : String) :
    savedHasPair saved u i = true ↔ (u, i) ∈ savedPairs saved := by
  constructor
  · intro h
    obtain ⟨e, he, hcond⟩ := List.any_eq_true.mp h
    simp only [Bool.and_eq_true, beq_iff_eq] at hcond
    exact List.mem_map.mpr ⟨e, he, by simp [hcond.1, hcond.2]⟩
  · intro h
    obtain ⟨e, he, hpair⟩ := List.mem_map.mp h
    refine List.any_eq_true.mpr ⟨e, he, ?_⟩
    have h1 : e.username = u := congrArg Prod.fst hpair
    have h2 : e.aweme_id = i := congrArg Prod.snd hpair
    simp [h1, h2]

theorem batchInsert_superset (saved : List SavedEntry) (u : String)
    (v : RawItem) : ∀ e ∈ saved, e ∈ batchInsert saved u v := by
  intro e he
  unfold batchInsert
  split
  · exact he
  · exact List.mem_cons_of_mem _ he

theorem batchInsert_nodup (saved : List SavedEntry) (u : String) (v : RawItem)
    (h : pairsNodup saved) : pairsNodup (batchInsert saved u v) := by
  unfold batchInsert
  split
  · exact h
  · rename_i hfalse
    have hnot : (u, v.video_id) ∉ savedPairs saved := fun hmem =>
      hfalse ((savedHasPair_iff saved u v.video_id).mpr hmem)
    simp only [pairsNodup, savedPairs, List.map_cons, List.nodup_cons]
    exact ⟨hnot, h⟩

theorem foldl_batchInsert_superset (u : String) :
    ∀ (items : List RawItem) (saved : List SavedEntry), ∀ e ∈ saved,
      e ∈ items.foldl (fun s v => batchInsert s u v) saved := by
  intro items
  induction items with
  | nil => intro saved e he; simpa using he
  | cons v vs ih =>
    intro saved e he
    simpa using ih (batchInsert saved u v) e (batchInsert_superset saved u v e he)

theorem foldl_batchInsert_nodup (u : String) :
    ∀ (items : List RawItem) (saved : List SavedEntry), pairsNodup saved →
      pairsNodup (items.foldl (fun s v => batchInsert s u v) saved) := by
  intro items
  induction items with
  | nil => intro saved h; simpa using h
  | cons v vs ih =>
    intro saved h
    simpa using ih (batchInsert saved u v) (batchInsert_nodup saved u v h)

theorem batchOne_spec (up : String → Nat → Nat → Option PageResp)
    (fuel : Nat) (t uname : String)
    (acc acc2 : List (String × UserRec) × List SavedEntry)
    (h : batchOne up fuel t uname acc = some acc2) :
    (∀ e ∈ acc.2, e ∈ acc2.2) ∧ (pairsNodup acc.2 → pairsNodup acc2.2) := by
  obtain ⟨accU, accS⟩ := acc
  obtain ⟨accU2, accS2⟩ := acc2
  unfold batchOne at h
  rcases hfa : batchFetchGo (up uname) fuel 0 0 [] with ⟨o, n⟩
  rw [hfa] at h
  cases o with
  | none => exact absurd h (by simp)
  | some items =>
    simp only [Option.some.injEq, Prod.mk.injEq] at h
    obtain ⟨hu, hs⟩ := h
    constructor
    · intro e he
      rw [← hs]
      exact foldl_batchInsert_superset uname items accS e he
    · intro hn
      rw [← hs]
      exact foldl_batchInsert_nodup uname items accS hn

theorem runBatch_spec (up : String → Nat → Nat → Option PageResp)
    (fuel : Nat) (t : String) :
    ∀ (us : List String) (acc acc2 : List (String × UserRec) × List SavedEntry),
      runBatch up fuel t us acc = some acc2 →
      (∀ e ∈ acc.2, e ∈ acc2.2) ∧ (pairsNodup acc.2 → pairsNodup acc2.2) := by
  intro us
  induction us with
  | nil =>
    intro acc acc2 h
    simp only [runBatch, Option.some.injEq] at h
    subst h
    exact ⟨fun e he => he, fun hn => hn⟩
  | cons uname rest ih =>
    intro acc acc2 h
    simp only [runBatch] at h
    cases hb : batchOne up fuel t uname acc with
    | none => rw [hb] at h; simp at h
    | some mid =>
      rw [hb] at h
      have h1 := batchOne_spec up fuel t uname acc mid hb
      have h2 := ih mid acc2 h
      exact ⟨fun e he => h2.1 e (h1.1 e he), fun hn => h2.2 (h1.2 hn)⟩

theorem runBatch_append (up : String → Nat → Nat → Option PageResp)
    (fuel : Nat) (t : String) :
    ∀ (us1 us2 : List String)
      (acc : List (String × UserRec) × List SavedEntry),
      runBatch up fuel t (us1 ++ us2) acc =
        (runBatch up fuel t us1 acc).bind (runBatch up fuel t us2) := by
  intro us1
  induction us1 with
  | nil => intro us2 acc; simp [runBatch]
  | cons uname rest ih =>
    intro us2 acc
    cases hb : batchOne up fuel t uname acc with
    | none => simp [runBatch, hb]
    | some mid => simp [runBatch, hb, ih us2 mid]

/-- The multi-user branch of `index` under a completed batch run. -/
theorem index_q_batch_eq (up : String → Nat → Nat → Option PageResp)
    (fuel : Nat) (t q : String) (st : AppState)
    (u2 : List (String × UserRec)) (s2 : List SavedEntry)
    (hq : 1 < (parseUsernames q).length)
    (hr : runBatch up fuel t (parseUsernames q)
        (st.users, st.savedUserUrls) = some (u2, s2)) :
    index_q up fuel t q st =
      ({ st with users := u2, savedUserUrls := s2 },
       [.saveUsers u2, .saveSavedUserUrls s2]) := by
  simp [index_q, hq, hr]

/-- The multi-user branch of `index` when some page request raised: the
handler aborts before either `save_*` call. -/
theorem index_q_batch_none (up : String → Nat → Nat → Option PageResp)
    (fuel : Nat) (t q : String) (st : AppState)
    (hq : 1 < (parseUsernames q).length)
    (hr : runBatch up fuel t (parseUsernames q)
        (st.users, st.savedUserUrls) = none) :
    index_q up fuel t q st = (st, []) := by
  simp [index_q, hq, hr]

/-- The single-creator path never touches the curated collection and
never writes it back. -/
theorem index_q_saved_unchanged_single (up : String → Nat → Nat → Option PageResp)
    (fuel : Nat) (t q : String) (st : AppState)
    (hq : ¬ 1 < (parseUsernames q).length) :
    (index_q up fuel t q st).1.savedUserUrls = st.savedUserUrls ∧
      (index_q up fuel t q st).2.countP isSavedSave = 0 := by
  by_cases hq2 : q = ""
  · subst hq2
    have hq0 : ¬ 1 < (parseUsernames "").length := by decide
    simp [index_q, hq0]
  · rcases hfa : fetch_all (up q) with ⟨o, n⟩
    cases o with
    | none =>
      rw [index_q_single_none up fuel t q st n hq hq2 hfa]
      simp
    | some items =>
      rw [index_q_single_eq up fuel t q st items n hq hq2 hfa]
      simp [List.countP_cons, isSavedSave]

theorem post_saved_user_url_superset (saved : List SavedEntry)
    (d : SavedEntry) : ∀ e ∈ saved, e ∈ post_saved_user_url saved d := by
  intro e he
  unfold post_saved_user_url
  split
  · exact he
  · exact List.mem_cons_of_mem _ he

theorem post_saved_user_url_nodup (saved : List SavedEntry) (d : SavedEntry)
    (h : pairsNodup saved) : pairsNodup (post_saved_user_url saved d) := by
  unfold post_saved_user_url
  split
  · exact h
  · rename_i hfalse
    have hnot : (d.username, d.aweme_id) ∉ savedPairs saved := fun hmem =>
      hfalse ((savedHasPair_iff saved d.username d.aweme_id).mpr hmem)
    simp only [pairsNodup, savedPairs, List.map_cons, List.nodup_cons]
    exact ⟨hnot, h⟩

/-- One request preserves both curated-collection invariants: existing
entries survive and key pairs stay duplicate-free. -/
theorem step_saved (st : AppState) (op : Op) :
    (∀ e ∈ st.savedUserUrls, e ∈ (step st op).savedUserUrls) ∧
      (pairsNodup st.savedUserUrls → pairsNodup (step st op).savedUserUrls) := by
  cases op with
  | indexQ up fuel t q =>
    by_cases hq : 1 < (parseUsernames q).length
    · rcases hr : runBatch up fuel t (parseUsernames q)
          (st.users, st.savedUserUrls) with _ | ⟨u2, s2⟩
      · simp only [step]
        rw [index_q_batch_none up fuel t q st hq hr]
        exact ⟨fun e he => he, fun hn => hn⟩
      · simp only [step]
        rw [index_q_batch_eq up fuel t q st u2 s2 hq hr]
        have h := runBatch_spec up fuel t (parseUsernames q)
          (st.users, st.savedUserUrls) (u2, s2) hr
        exact ⟨fun e he => h.1 e he, fun hn => h.2 hn⟩
    · simp only [step]
      rw [(index_q_saved_unchanged_single up fuel t q st hq).1]
      exact ⟨fun e he => he, fun hn => hn⟩
  | postSavedUserUrl d =>
    simp only [step]
    exact ⟨post_saved_user_url_superset st.savedUserUrls d,
      post_saved_user_url_nodup st.savedUserUrls d⟩
  | apiView vid =>
    simp only [step]
    exact ⟨fun e he => he, fun hn => hn⟩
  | fromUrl fo aux =>
    simp only [step]
    cases hfu : from_url fo aux st.hdUrls with
    | error err => exact ⟨fun e he => he, fun hn => hn⟩
    | ok pr => exact ⟨fun e he => he, fun hn => hn⟩

/-- `step_saved` lifted over a request sequence. -/
theorem runOps_saved (ops : List Op) :
    ∀ st : AppState,
      (∀ e ∈ st.savedUserUrls, e ∈ (runOps st ops).savedUserUrls) ∧
        (pairsNodup st.savedUserUrls →
          pairsNodup (runOps st ops).savedUserUrls) := by
  induction ops with
  | nil => intro st; exact ⟨fun e he => he, fun hn => hn⟩
  | cons op ops ih =>
    intro st
    have h1 := step_saved st op
    have h2 := ih (step st op)
    have hrw : runOps st (op :: ops) = runOps (step st op) ops := rfl
    rw [hrw]
    exact ⟨fun e he => h2.1 e (h1.1 e he), fun hn => h2.2 (h1.2 hn)⟩

/-- **C4.**  Across every sequence of requests built from batch
ingestions, direct saved-user-url insertions (and the remaining modelled
requests, which do not touch the collection), the curated
saved-creator-URL collection never holds two entries with the same
`(creator, content_id)` pair, and no entry present at the start of the
sequence is ever lost: both the batch path and the direct path only
prepend, never replace or truncate. -/
theorem c4_saved_pairs_invariant :
    ∀ (ops : List Op) (st : AppState), pairsNodup st.savedUserUrls →
      pairsNodup (runOps st ops).savedUserUrls ∧
        ∀ e ∈ st.savedUserUrls, e ∈ (runOps st ops).savedUserUrls := by
  intro ops st hn
  exact ⟨(runOps_saved ops st).2 hn, (runOps_saved ops st).1⟩

/-- Witness for C4: a direct insertion followed by a batch call that
re-encounters the same `(creator, content_id)` pair. -/
theorem c4_witness :
    pairsNodup (runOps c4State
        [Op.indexQ batchUp 10 "t" "a,b"]).savedUserUrls ∧
      ∀ e ∈ c4State.savedUserUrls,
        e ∈ (runOps c4State
          [Op.indexQ batchUp 10 "t" "a,b"]).savedUserUrls :=
  c4_saved_pairs_invariant [Op.indexQ batchUp 10 "t" "a,b"] c4State
    (by simp [c4State, pairsNodup, savedPairs])

/-- **C8.**  The batch orchestrator — taken only when the request
supplies more than one username — persists the creator map and the
curated collection exactly once each, after all usernames are processed
(the emitted persist trace is exactly one `save_users` followed by one
`save_saved_user_urls`, regardless of how many usernames were handled);
entries accumulated for earlier usernames of the same call survive to
the final persisted collection even when a later username's pagination
fails; and a request with at most one username never writes the curated
collection at all. -/
theorem c8_batch_persist_once :
    (∀ (up : String → Nat → Nat → Option PageResp) (fuel : Nat)
        (t q : String) (st : AppState) (u2 : List (String × UserRec))
        (s2 : List SavedEntry),
      1 < (parseUsernames q).length →
      runBatch up fuel t (parseUsernames q)
          (st.users, st.savedUserUrls) = some (u2, s2) →
      (index_q up fuel t q st).2 =
          [.saveUsers u2, .saveSavedUserUrls s2] ∧
        (index_q up fuel t q st).2.countP isSavedSave = 1 ∧
        (index_q up fuel t q st).1.savedUserUrls = s2 ∧
        ∀ e ∈ st.savedUserUrls, e ∈ s2) ∧
    (∀ (up : String → Nat → Nat → Option PageResp) (fuel : Nat) (t : String)
        (us1 us2 : List String)
        (acc mid fin : List (String × UserRec) × List SavedEntry),
      runBatch up fuel t us1 acc = some mid →
      runBatch up fuel t (us1 ++ us2) acc = some fin →
      ∀ e ∈ mid.2, e ∈ fin.2) ∧
    (∀ (up : String → Nat → Nat → Option PageResp) (fuel : Nat)
        (t q : String) (st : AppState),
      ¬ 1 < (parseUsernames q).length →
      (index_q up fuel t q st).1.savedUserUrls = st.savedUserUrls ∧
        (index_q up fuel t q st).2.countP isSavedSave = 0) := by
  refine ⟨?_, ?_, ?_⟩
  · intro up fuel t q st u2 s2 hq hr
    rw [index_q_batch_eq up fuel t q st u2 s2 hq hr]
    refine ⟨rfl, by simp [List.countP_cons, isSavedSave], rfl, ?_⟩
    exact (runBatch_spec up fuel t (parseUsernames q)
      (st.users, st.savedUserUrls) (u2, s2) hr).1
  · intro up fuel t us1 us2 acc mid fin h1 h2
    rw [runBatch_append up fuel t us1 us2 acc, h1] at h2
    exact (runBatch_spec up fuel t us2 mid fin h2).1
  · intro up fuel t q st hq
    exact index_q_saved_unchanged_single up fuel t q st hq

/-- Witness for C8 at the two-creator fixture: the trace is exactly the
two final persists, and a single-creator request writes no curated
entry. -/
theorem c8_witness :
    ((index_q batchUp 10 "t" "a,b" initialState).2 =
        [.saveUsers c8u2, .saveSavedUserUrls c8s2] ∧
      (index_q batchUp 10 "t" "a,b" initialState).2.countP isSavedSave = 1 ∧
      (index_q batchUp 10 "t" "a,b" initialState).1.savedUserUrls = c8s2 ∧
      ∀ e ∈ initialState.savedUserUrls, e ∈ c8s2) ∧
    ((index_q (fun _ => onePageUp "w1") 0 "t" "alice"
          initialState).1.savedUserUrls = initialState.savedUserUrls ∧
      (index_q (fun _ => onePageUp "w1") 0 "t" "alice"
          initialState).2.countP isSavedSave = 0) :=
  ⟨c8_batch_persist_once.1 batchUp 10 "t" "a,b" initialState c8u2 c8s2
      (by decide) (by decide),
    c8_batch_persist_once.2.2 (fun _ => onePageUp "w1") 0 "t" "alice"
      initialState (by decide)⟩

/-! ### HD-cache lemmas -/

theorem dictSet_hd_consistent :
    ∀ (hd : List (String × String)) (k : String), hdConsistent hd →
      hdConsistent (dictSet hd k (hdplayUrl k)) := by
  intro hd
  induction hd with
  | nil =>
    intro k h kv hkv
    simp [dictSet] at hkv
    subst hkv
    rfl
  | cons p rest ih =>
    intro k h kv hkv
    obtain ⟨k1, v1⟩ := p
    by_cases hk : k1 = k
    · simp [dictSet, hk] at hkv
      rcases hkv with hkv | hkv
      · subst hkv; rfl
      · exact h kv (List.mem_cons_of_mem _ hkv)
    · simp [dictSet, hk] at hkv
      rcases hkv with hkv | hkv
      · exact h kv (by simp [hkv])
      · exact ih k (fun kv2 hkv2 => h kv2 (List.mem_cons_of_mem _ hkv2)) kv hkv

theorem foldl_hd_consistent :
    ∀ (items : List RawItem) (hd : List (String × String)), hdConsistent hd →
      hdConsistent (items.foldl
        (fun h v => dictSet h v.video_id (hdplayUrl v.video_id)) hd) := by
  intro items
  induction items with
  | nil => intro hd h; simpa using h
  | cons v vs ih =>
    intro hd h
    simpa using ih _ (dictSet_hd_consistent hd v.video_id h)

theorem foldl_hd_stable :
    ∀ (items : List RawItem) (hd : List (String × String)) (k : String),
      dictGet? hd k = some (hdplayUrl k) →
      dictGet? (items.foldl
        (fun h v => dictSet h v.video_id (hdplayUrl v.video_id)) hd) k =
        some (hdplayUrl k) := by
  intro items
  induction items with
  | nil => intro hd k h; simpa using h
  | cons v vs ih =>
    intro hd k h
    simp only [List.foldl_cons]
    apply ih
    rw [dictGet_dictSet]
    by_cases hk : k = v.video_id
    · subst hk; simp
    · simp [hk, h]

theorem foldl_hd_mem :
    ∀ (items : List RawItem) (hd : List (String × String)) (v : RawItem),
      v ∈ items →
      dictGet? (items.foldl
        (fun h w => dictSet h w.video_id (hdplayUrl w.video_id)) hd)
        v.video_id = some (hdplayUrl v.video_id) := by
  intro items
  induction items with
  | nil => intro hd v h; simp at h
  | cons w ws ih =>
    intro hd v h
    rcases List.mem_cons.mp h with h1 | h1
    · subst h1
      simp only [List.foldl_cons]
      apply foldl_hd_stable
      simp [dictGet_dictSet]
    · simpa using ih _ v h1

/-- Structure of a successful URL resolution: the identifier comes from
the `video`-segment scan of the final URL, both playback URLs are the
fixed templates, the images degrade to the auxiliary lookup's result (or
`[]` on its failure), and the HD cache gains the derived entry. -/
theorem from_url_ok (fo : Option String) (aux : Option (List String))
    (hd : List (String × String)) (link : ResolvedLink)
    (hd2 : List (String × String))
    (h : from_url fo aux hd = .ok (link, hd2)) :
    ∃ final, fo = some final ∧
      extractAwemeId (pathSegments final) = some link.aweme_id ∧
      link.play_url = playUrl link.aweme_id ∧
      link.hd_url = hdplayUrl link.aweme_id ∧
      link.images = aux.getD [] ∧
      hd2 = dictSet hd link.aweme_id (hdplayUrl link.aweme_id) := by
  cases fo with
  | none => simp [from_url] at h
  | some final =>
    refine ⟨final, rfl, ?_⟩
    cases hex : extractAwemeId (pathSegments final) with
    | none => simp [from_url, hex] at h
    | some aid =>
      by_cases haid : aid = ""
      · simp [from_url, hex, haid] at h
      · simp [from_url, hex, haid] at h
        obtain ⟨hlink, hhd⟩ := h
        subst hhd
        subst hlink
        exact ⟨rfl, rfl, rfl, rfl, rfl⟩

/-- One request preserves cache consistency. -/
theorem step_hd (st : AppState) (op : Op) (h : hdConsistent st.hdUrls) :
    hdConsistent (step st op).hdUrls := by
  cases op with
  | indexQ up fuel t q =>
    simp only [step]
    by_cases hq : 1 < (parseUsernames q).length
    · rcases hr : runBatch up fuel t (parseUsernames q)
          (st.users, st.savedUserUrls) with _ | ⟨u2, s2⟩
      · rw [index_q_batch_none up fuel t q st hq hr]; exact h
      · rw [index_q_batch_eq up fuel t q st u2 s2 hq hr]; exact h
    · by_cases hq2 : q = ""
      · subst hq2
        have hq0 : ¬ 1 < (parseUsernames "").length := by decide
        simpa [index_q, hq0] using h
      · rcases hfa : fetch_all (up q) with ⟨o, n⟩
        cases o with
        | none => rw [index_q_single_none up fuel t q st n hq hq2 hfa]; exact h
        | some items =>
          rw [index_q_single_eq up fuel t q st items n hq hq2 hfa]
          exact foldl_hd_consistent _ st.hdUrls h
  | postSavedUserUrl d => exact h
  | apiView vid => exact h
  | fromUrl fo aux =>
    simp only [step]
    cases hfu : from_url fo aux st.hdUrls with
    | error err => exact h
    | ok pr =>
      obtain ⟨link, hd2⟩ := pr
      obtain ⟨final, hfo, hex, hplay, hhdurl, him, hhd2⟩ :=
        from_url_ok fo aux st.hdUrls link hd2 hfu
      subst hhd2
      exact dictSet_hd_consistent st.hdUrls link.aweme_id h

/-- `step_hd` lifted over a request sequence. -/
theorem runOps_hd (ops : List Op) :
    ∀ st : AppState, hdConsistent st.hdUrls →
      hdConsistent (runOps st ops).hdUrls := by
  induction ops with
  | nil => intro st h; exact h
  | cons op ops ih =>
    intro st h
    have hrw : runOps st (op :: ops) = runOps (step st op) ops := rfl
    rw [hrw]
    exact ih (step st op) (step_hd st op h)

/-- **C9 (amended).**  The HD-link cache maps every key it holds to
exactly the fixed hdplay template URL derived from that content_id (the
same derivation rule normalization uses), across every modelled request
sequence; it gains an entry for every content_id stored by
single-creator ingestion and for the content_id of every successful URL
resolution.  The batch path, however, does not write the cache. -/
theorem c9_hd_cache :
    (∀ (ops : List Op) (st : AppState), hdConsistent st.hdUrls →
        hdConsistent (runOps st ops).hdUrls) ∧
    (∀ (up : String → Nat → Nat → Option PageResp) (fuel : Nat)
        (t q : String) (st : AppState) (items : List RawItem) (n : Nat),
      ¬ 1 < (parseUsernames q).length → q ≠ "" →
      fetch_all (up q) = (some items, n) →
      ∀ v ∈ items.take MAX_ITEMS,
        dictGet? (index_q up fuel t q st).1.hdUrls v.video_id =
          some (hdplayUrl v.video_id)) ∧
    (∀ (fo : Option String) (aux : Option (List String))
        (hd : List (String × String)) (link : ResolvedLink)
        (hd2 : List (String × String)),
      from_url fo aux hd = .ok (link, hd2) →
      dictGet? hd2 link.aweme_id = some (hdplayUrl link.aweme_id)) := by
  refine ⟨fun ops st h => runOps_hd ops st h, ?_, ?_⟩
  · intro up fuel t q st items n hq1 hq2 hf v hv
    rw [index_q_single_eq up fuel t q st items n hq1 hq2 hf]
    exact foldl_hd_mem (items.take 100) st.hdUrls v hv
  · intro fo aux hd link hd2 h
    obtain ⟨final, hfo, hex, hplay, hhdurl, him, hhd2⟩ :=
      from_url_ok fo aux hd link hd2 h
    rw [hhd2, dictGet_dictSet]
    simp

/-- Witness for C9: the one ingested item's identifier is cached with
its hdplay template. -/
theorem c9_witness :
    dictGet? (index_q (fun _ => onePageUp "w1") 0 "t" "alice"
        initialState).1.hdUrls (itemOf "w1").video_id =
      some (hdplayUrl (itemOf "w1").video_id) :=
  c9_hd_cache.2.1 (fun _ => onePageUp "w1") 0 "t" "alice" initialState
    [itemOf "w1"] 1 (by decide) (by decide) (by decide) (itemOf "w1")
    (by decide)

/-- **C9 counterexample.**  A batch ingestion of two creators stores
their items in the curated collection, yet the HD cache stays empty: the
batch path does not register the content identifiers it processes. -/
theorem c9_counterexample :
    (step initialState (.indexQ batchUp 10 "t" "a,b")).hdUrls = [] ∧
      savedHasPair (step initialState
        (.indexQ batchUp 10 "t" "a,b")).savedUserUrls "a" "v-a" = true := by
  constructor
  · decide
  · decide

/-! ### Play-count lemmas -/

theorem allPosts_cons (u : String) (l : List Post)
    (rest : List (String × List Post)) :
    allPosts ((u, l) :: rest) = l ++ allPosts rest := rfl

theorem findInList_some (l : List Post) (vid : String) (p : Post)
    (h : findInList l vid = some p) : p ∈ l ∧ p.aweme_id = vid := by
  unfold findInList at h
  exact ⟨List.mem_of_find?_eq_some h, by simpa using List.find?_some h⟩

theorem findInList_none_iff (l : List Post) (vid : String) :
    findInList l vid = none ↔ ∀ p ∈ l, p.aweme_id ≠ vid := by
  simp [findInList, List.find?_eq_none]

theorem incInList_none_iff : ∀ (l : List Post) (vid : String),
    incInList l vid = none ↔ findInList l vid = none := by
  intro l vid
  induction l with
  | nil => simp [incInList, findInList]
  | cons p ps ih =>
    by_cases hp : p.aweme_id = vid
    · constructor
      · intro h; exact absurd h (by simp [incInList, hp])
      · intro h; exact absurd h (by simp [findInList, List.find?_cons, hp])
    · have hbeq : (p.aweme_id == vid) = false := by
        simpa using hp
      have hfind : findInList (p :: ps) vid = findInList ps vid := by
        simp [findInList, List.find?_cons, hbeq]
      rw [hfind]
      cases hi : incInList ps vid with
      | none =>
        simp only [incInList, if_neg hp, hi]
        exact iff_of_true trivial (ih.mp hi)
      | some pr =>
        obtain ⟨n1, ps1⟩ := pr
        simp only [incInList, if_neg hp, hi]
        exact iff_of_false (by simp) (fun hc => by simp [ih.mpr hc] at hi)

theorem find_by_id_none_iff : ∀ (posts : List (String × List Post))
    (vid : String),
    find_by_id posts vid = none ↔ ∀ p ∈ allPosts posts, p.aweme_id ≠ vid := by
  intro posts vid
  induction posts with
  | nil => simp [find_by_id, allPosts]
  | cons pr rest ih =>
    obtain ⟨u, l⟩ := pr
    cases hfl : findInList l vid with
    | some p =>
      have hp := findInList_some l vid p hfl
      simp only [find_by_id, hfl]
      constructor
      · intro h; exact absurd h (by simp)
      · intro h
        exact absurd hp.2
          (h p (by rw [allPosts_cons]; exact List.mem_append_left _ hp.1))
    | none =>
      have hl := (findInList_none_iff l vid).mp hfl
      simp only [find_by_id, hfl]
      rw [ih]
      constructor
      · intro h p hp
        rw [allPosts_cons] at hp
        rcases List.mem_append.mp hp with h1 | h1
        · exact hl p h1
        · exact h p h1
      · intro h p hp
        exact h p (by rw [allPosts_cons]; exact List.mem_append_right _ hp)

theorem increment_none_iff : ∀ (posts : List (String × List Post))
    (vid : String),
    increment_play_count posts vid = none ↔ find_by_id posts vid = none := by
  intro posts vid
  induction posts with
  | nil => simp [increment_play_count, find_by_id]
  | cons pr rest ih =>
    obtain ⟨u, l⟩ := pr
    cases hi : incInList l vid with
    | some nl =>
      have hf : ¬ findInList l vid = none := fun hc => by
        simp [(incInList_none_iff l vid).mpr hc] at hi
      cases hfl : findInList l vid with
      | none => exact absurd hfl hf
      | some p => simp [increment_play_count, find_by_id, hi, hfl]
    | none =>
      have hfl : findInList l vid = none := (incInList_none_iff l vid).mp hi
      cases hr : increment_play_count rest vid with
      | none => simp [increment_play_count, find_by_id, hi, hfl, hr, ih.mp hr]
      | some pr2 =>
        have hf2 : ¬ find_by_id rest vid = none := fun hc => by
          simp [ih.mpr hc] at hr
        simp [increment_play_count, find_by_id, hi, hfl, hr, hf2]

theorem incInList_some : ∀ (l : List Post) (vid : String) (n : Nat)
    (l2 : List Post), incInList l vid = some (n, l2) →
    ∃ p, findInList l vid = some p ∧ n = p.play_count + 1 ∧
      findInList l2 vid = some { p with play_count := n } ∧
      ∀ w, w ≠ vid → findInList l2 w = findInList l w := by
  intro l
  induction l with
  | nil => intro vid n l2 h; simp [incInList] at h
  | cons p ps ih =>
    intro vid n l2 h
    by_cases hp : p.aweme_id = vid
    · simp only [incInList, if_pos hp, Option.some.injEq, Prod.mk.injEq] at h
      obtain ⟨hn, hl2⟩ := h
      refine ⟨p, ?_, hn.symm, ?_, ?_⟩
      · simp [findInList, List.find?_cons, hp]
      · rw [← hl2]
        simp [findInList, List.find?_cons, hp, hn]
      · intro w hw
        rw [← hl2]
        have hbw : (p.aweme_id == w) = false := by
          simp [hp]
          exact fun hc => hw hc.symm
        simp [findInList, List.find?_cons, hbw]
    · have hbeq : (p.aweme_id == vid) = false := by simpa using hp
      cases hi : incInList ps vid with
      | none => simp [incInList, hp, hi] at h
      | some pr =>
        obtain ⟨n2, ps2⟩ := pr
        simp only [incInList, if_neg hp, hi, Option.some.injEq,
          Prod.mk.injEq] at h
        obtain ⟨hn, hl2⟩ := h
        subst hn
        obtain ⟨p1, hfind, hcount, hfind2, hother⟩ := ih vid n2 ps2 hi
        refine ⟨p1, ?_, hcount, ?_, ?_⟩
        · simp [findInList, List.find?_cons, hbeq]
          exact hfind
        · rw [← hl2]
          simp [findInList, List.find?_cons, hbeq]
          exact hfind2
        · intro w hw
          rw [← hl2]
          by_cases hpw : p.aweme_id = w
          · have hbw : (p.aweme_id == w) = true := by simpa using hpw
            simp [findInList, List.find?_cons, hbw]
          · have hbw : (p.aweme_id == w) = false := by simpa using hpw
            simp only [findInList, List.find?_cons, hbw]
            exact hother w hw

theorem increment_some : ∀ (posts : List (String × List Post)) (vid : String)
    (n : Nat) (posts2 : List (String × List Post)),
    increment_play_count posts vid = some (n, posts2) →
    ∃ p, find_by_id posts vid = some p ∧ n = p.play_count + 1 ∧
      find_by_id posts2 vid = some { p with play_count := n } ∧
      ∀ w, w ≠ vid → find_by_id posts2 w = find_by_id posts w := by
  intro posts
  induction posts with
  | nil => intro vid n posts2 h; simp [increment_play_count] at h
  | cons pr rest ih =>
    obtain ⟨u, l⟩ := pr
    intro vid n posts2 h
    cases hi : incInList l vid with
    | some nl =>
      obtain ⟨n2, l2⟩ := nl
      simp only [increment_play_count, hi, Option.some.injEq,
        Prod.mk.injEq] at h
      obtain ⟨hn, hl2⟩ := h
      subst hn
      obtain ⟨p1, hfind, hcount, hfind2, hother⟩ := incInList_some l vid n2 l2 hi
      refine ⟨p1, ?_, hcount, ?_, ?_⟩
      · simp [find_by_id, hfind]
      · rw [← hl2]
        simp [find_by_id, hfind2]
      · intro w hw
        rw [← hl2]
        simp only [find_by_id]
        rw [hother w hw]
    | none =>
      have hfl : findInList l vid = none := (incInList_none_iff l vid).mp hi
      cases hr : increment_play_count rest vid with
      | none => simp [increment_play_count, hi, hr] at h
      | some pr2 =>
        obtain ⟨n2, rest2⟩ := pr2
        simp only [increment_play_count, hi, hr, Option.some.injEq,
          Prod.mk.injEq] at h
        obtain ⟨hn, hl2⟩ := h
        subst hn
        obtain ⟨p1, hfind, hcount, hfind2, hother⟩ := ih vid n2 rest2 hr
        refine ⟨p1, ?_, hcount, ?_, ?_⟩
        · simp [find_by_id, hfl, hfind]
        · rw [← hl2]
          simp [find_by_id, hfl, hfind2]
        · intro w hw
          rw [← hl2]
          simp only [find_by_id]
          cases hflw : findInList l w with
          | some pw => rfl
          | none => exact hother w hw

/-- One `api_view` request's effect on the first post carrying a given
identifier. -/
theorem find_api_view_step (posts : List (String × List Post))
    (vid w : String) (p : Post) (h : find_by_id posts w = some p) :
    find_by_id (api_view_step posts vid) w =
      some (if vid = w then { p with play_count := p.play_count + 1 }
            else p) := by
  unfold api_view_step
  cases hi : increment_play_count posts vid with
  | none =>
    by_cases hvw : vid = w
    · subst hvw
      have hnone := (increment_none_iff posts vid).mp hi
      rw [hnone] at h
      exact absurd h (by simp)
    · simp [hvw, h]
  | some pr =>
    obtain ⟨n, posts2⟩ := pr
    obtain ⟨p1, hfind, hn, hfind2, hother⟩ := increment_some posts vid n posts2 hi
    by_cases hvw : vid = w
    · subst hvw
      have hp : p1 = p := by
        rw [h] at hfind
        injection hfind with hx
        exact hx.symm
      subst hp
      rw [hfind2]
      simp [hn]
    · have hwv : w ≠ vid := fun hc => hvw hc.symm
      rw [hother w hwv, h]
      simp [hvw]

/-- A post's play count after a sequence of `api_view` requests is its
starting count plus the number of requests that named it. -/
theorem applyViews_count : ∀ (ops : List String)
    (posts : List (String × List Post)) (vid : String) (p : Post),
    find_by_id posts vid = some p →
    ∃ p2, find_by_id (applyViews posts ops) vid = some p2 ∧
      p2.play_count = p.play_count + ops.count vid ∧
      p2.aweme_id = p.aweme_id := by
  intro ops
  induction ops with
  | nil =>
    intro posts vid p h
    exact ⟨p, h, by simp [List.count_nil], rfl⟩
  | cons op ops ih =>
    intro posts vid p h
    have hstep := find_api_view_step posts op vid p h
    obtain ⟨p2, h2, hc, hid⟩ := ih (api_view_step posts op) vid _ hstep
    have happ : applyViews posts (op :: ops) = applyViews (api_view_step posts op) ops := rfl
    refine ⟨p2, by rw [happ]; exact h2, ?_, ?_⟩
    · rw [hc]
      by_cases hov : op = vid
      · subst hov
        simp [List.count_cons]
        omega
      · simp [List.count_cons, hov]
    · rw [hid]
      by_cases hov : op = vid <;> simp [hov]

/-- **C6.**  `increment_play_count(content_id)` fails with `NotFound`
exactly when no post with that identifier exists in any creator's
catalog; otherwise it increments the (first) post carrying that
identifier by exactly 1 and returns the new count.  Consequently, for a
post starting at the count 0 that ingestion assigns, after any sequence
of view requests its play count equals the number of successful
increments that named it (play counts live in `Nat`, so they are never
negative). -/
theorem c6_increment_play_count :
    (∀ (posts : List (String × List Post)) (vid : String),
      increment_play_count posts vid = none ↔
        ∀ p ∈ allPosts posts, p.aweme_id ≠ vid) ∧
    (∀ (posts : List (String × List Post)) (vid : String) (n : Nat)
        (posts2 : List (String × List Post)),
      increment_play_count posts vid = some (n, posts2) →
      ∃ p, find_by_id posts vid = some p ∧ n = p.play_count + 1 ∧
        find_by_id posts2 vid = some { p with play_count := n }) ∧
    (∀ (ops : List String) (posts : List (String × List Post))
        (vid : String) (p : Post),
      find_by_id posts vid = some p → p.play_count = 0 →
      ∃ p2, find_by_id (applyViews posts ops) vid = some p2 ∧
        p2.play_count = ops.count vid) := by
  refine ⟨?_, ?_, ?_⟩
  · intro posts vid
    rw [increment_none_iff posts vid]
    exact find_by_id_none_iff posts vid
  · intro posts vid n posts2 h
    obtain ⟨p, hfind, hn, hfind2, _⟩ := increment_some posts vid n posts2 h
    exact ⟨p, hfind, hn, hfind2⟩
  · intro ops posts vid p h hzero
    obtain ⟨p2, h2, hc, _⟩ := applyViews_count ops posts vid p h
    exact ⟨p2, h2, by rw [hc, hzero]; simp⟩

/-- Witness for C6: the view `"w1"` is counted twice, an unknown
identifier is a no-op. -/
theorem c6_witness :
    ∃ p2, find_by_id (applyViews [("A", [normalizePost (itemOf "w1")])]
        ["w1", "x", "w1"]) "w1" = some p2 ∧
      p2.play_count = (["w1", "x", "w1"] : List String).count "w1" :=
  c6_increment_play_count.2.2 ["w1", "x", "w1"]
    [("A", [normalizePost (itemOf "w1")])] "w1" (normalizePost (itemOf "w1"))
    (by decide) (by decide)

/-! ### Top-view lemmas -/

theorem maxByPlay_spec : ∀ (ps : List Post) (p : Post),
    (∀ x ∈ p :: ps, x.play_count ≤ (maxByPlay p ps).play_count) ∧
      ∃ l1 l2, p :: ps = l1 ++ maxByPlay p ps :: l2 ∧
        ∀ y ∈ l1, y.play_count < (maxByPlay p ps).play_count := by
  intro ps
  induction ps with
  | nil =>
    intro p
    constructor
    · intro x hx
      simp at hx
      subst hx
      exact le_refl _
    · exact ⟨[], [], rfl, by simp⟩
  | cons x xs ih =>
    intro p
    have hstep : maxByPlay p (x :: xs) =
        maxByPlay (if p.play_count < x.play_count then x else p) xs := rfl
    by_cases hpx : p.play_count < x.play_count
    · rw [hstep, if_pos hpx]
      obtain ⟨hmax, l1, l2, hsplit, hlt⟩ := ih x
      have hxle : x.play_count ≤ (maxByPlay x xs).play_count :=
        hmax x (List.mem_cons_self x xs)
      refine ⟨?_, p :: l1, l2, ?_, ?_⟩
      · intro z hz
        rcases List.mem_cons.mp hz with hz | hz
        · subst hz; exact le_trans (le_of_lt hpx) hxle
        · exact hmax z hz
      · rw [List.cons_append, ← hsplit]
      · intro y hy
        rcases List.mem_cons.mp hy with hy | hy
        · subst hy; exact lt_of_lt_of_le hpx hxle
        · exact hlt y hy
    · rw [hstep, if_neg hpx]
      obtain ⟨hmax, l1, l2, hsplit, hlt⟩ := ih p
      have hxp : x.play_count ≤ p.play_count := le_of_not_lt hpx
      have hple : p.play_count ≤ (maxByPlay p xs).play_count :=
        hmax p (List.mem_cons_self p xs)
      cases l1 with
      | nil =>
        simp only [List.nil_append] at hsplit
        have hm : maxByPlay p xs = p :=
          ((List.cons.injEq _ _ _ _).mp hsplit.symm).1
        refine ⟨?_, [], x :: xs, by simp [hm], by simp⟩
        intro z hz
        rcases List.mem_cons.mp hz with hz | hz
        · subst hz; exact hple
        · rcases List.mem_cons.mp hz with hz2 | hz2
          · subst hz2; rw [hm]; exact hxp
          · exact hmax z (List.mem_cons_of_mem p hz2)
      | cons a l1t =>
        simp only [List.cons_append, List.cons.injEq] at hsplit
        obtain ⟨hap, hxs⟩ := hsplit
        subst hap
        have hpl1 : p.play_count < (maxByPlay p xs).play_count :=
          hlt p (List.mem_cons_self p l1t)
        refine ⟨?_, p :: x :: l1t, l2, ?_, ?_⟩
        · intro z hz
          rcases List.mem_cons.mp hz with hz | hz
          · subst hz; exact hple
          · rcases List.mem_cons.mp hz with hz2 | hz2
            · subst hz2; exact le_trans hxp hple
            · exact hmax z (List.mem_cons_of_mem p hz2)
        · rw [List.cons_append, List.cons_append, ← hxs]
        · intro y hy
          rcases List.mem_cons.mp hy with hy | hy
          · subst hy; exact hpl1
          · rcases List.mem_cons.mp hy with hy2 | hy2
            · subst hy2; exact lt_of_le_of_lt hxp hpl1
            · exact hlt y (List.mem_cons_of_mem p hy2)

theorem insertDesc_mem (x : Post) : ∀ (l : List Post) (a : Post),
    a ∈ insertDesc x l ↔ a = x ∨ a ∈ l := by
  intro l
  induction l with
  | nil => intro a; simp [insertDesc]
  | cons y ys ih =>
    intro a
    unfold insertDesc
    split
    · simp [List.mem_cons]
    · simp only [List.mem_cons, ih a]
      tauto

theorem insertDesc_pairwise (x : Post) : ∀ (l : List Post),
    l.Pairwise (fun a b => b.play_count ≤ a.play_count) →
    (insertDesc x l).Pairwise (fun a b => b.play_count ≤ a.play_count) := by
  intro l
  induction l with
  | nil => intro h; simp [insertDesc]
  | cons y ys ih =>
    intro h
    rw [List.pairwise_cons] at h
    obtain ⟨hy, hys⟩ := h
    unfold insertDesc
    split
    · rename_i hcond
      rw [List.pairwise_cons]
      refine ⟨?_, ?_⟩
      · intro b hb
        rcases List.mem_cons.mp hb with hb | hb
        · subst hb; exact hcond
        · exact le_trans (hy b hb) hcond
      · rw [List.pairwise_cons]
        exact ⟨hy, hys⟩
    · rename_i hcond
      rw [List.pairwise_cons]
      refine ⟨?_, ih hys⟩
      intro b hb
      rcases (insertDesc_mem x ys b).mp hb with hb | hb
      · subst hb; exact le_of_lt (lt_of_not_le hcond)
      · exact hy b hb

theorem sortDescByPlay_mem : ∀ (l : List Post) (a : Post),
    a ∈ sortDescByPlay l ↔ a ∈ l := by
  intro l
  induction l with
  | nil => intro a; simp [sortDescByPlay]
  | cons x xs ih =>
    intro a
    simp only [sortDescByPlay, insertDesc_mem, ih, List.mem_cons]

theorem sortDescByPlay_sorted : ∀ l : List Post,
    (sortDescByPlay l).Pairwise (fun a b => b.play_count ≤ a.play_count) := by
  intro l
  induction l with
  | nil => simp [sortDescByPlay]
  | cons x xs ih => exact insertDesc_pairwise x _ ih

/-- **C5.**  `top_posts` picks, for each creator with a non-empty
catalog, the post of maximum play count (the first in storage order on
ties), sorts that one-per-creator selection by play count descending and
truncates to `limit`; `limit` 0 yields the empty sequence, the API view
defaults `limit` to 20 and the page view truncates at 50; on the
spec's concrete example the result is exactly the 7-count post then the
5-count post. -/
theorem c5_top_posts :
    topPosts [("A", [post3, post7]), ("B", [post5])] 10 = [post7, post5] ∧
    (∀ posts : List (String × List Post), topPosts posts 0 = []) ∧
    (∀ (posts : List (String × List Post)) (limit : Nat),
      (topPosts posts limit).length ≤ limit) ∧
    (∀ (posts : List (String × List Post)) (limit : Nat),
      (topPosts posts limit).Pairwise
        (fun a b => b.play_count ≤ a.play_count)) ∧
    (∀ (posts : List (String × List Post)) (limit : Nat) (x : Post),
      x ∈ topPosts posts limit →
      x ∈ posts.filterMap (fun pr =>
        match pr.2 with
        | [] => none
        | p :: ps => some (maxByPlay p ps))) ∧
    (∀ (ps : List Post) (p : Post),
      (∀ x ∈ p :: ps, x.play_count ≤ (maxByPlay p ps).play_count) ∧
        ∃ l1 l2, p :: ps = l1 ++ maxByPlay p ps :: l2 ∧
          ∀ y ∈ l1, y.play_count < (maxByPlay p ps).play_count) ∧
    (∀ posts : List (String × List Post),
      api_top posts none = topPosts posts API_TOP_DEFAULT ∧
        index_top_view posts = topPosts posts PAGE_TOP_LIMIT) ∧
    API_TOP_DEFAULT = 20 ∧ PAGE_TOP_LIMIT = 50 := by
  refine ⟨by decide, ?_, ?_, ?_, ?_, maxByPlay_spec, ?_, rfl, rfl⟩
  · intro posts
    simp [topPosts]
  · intro posts limit
    exact List.length_take_le _ _
  · intro posts limit
    exact List.Pairwise.sublist (List.take_sublist _ _)
      (sortDescByPlay_sorted _)
  · intro posts limit x hx
    have hx2 : x ∈ sortDescByPlay (posts.filterMap (fun pr =>
        match pr.2 with
        | [] => none
        | p :: ps => some (maxByPlay p ps))) := List.take_subset _ _ hx
    exact (sortDescByPlay_mem _ x).mp hx2
  · intro posts
    exact ⟨rfl, rfl⟩

/-- Witness for C5: maximality of the per-creator selection at a
concrete catalog, and the 7-count post of the concrete example is one of
the per-creator maxima. -/
theorem c5_witness :
    post3.play_count ≤ (maxByPlay post3 [post7]).play_count ∧
      post7 ∈ ([("A", [post3, post7]), ("B", [post5])] :
          List (String × List Post)).filterMap (fun pr =>
        match pr.2 with
        | [] => none
        | p :: ps => some (maxByPlay p ps)) :=
  ⟨(c5_top_posts.2.2.2.2.2.1 [post7] post3).1 post3 (by decide),
    c5_top_posts.2.2.2.2.1 [("A", [post3, post7]), ("B", [post5])] 10 post7
      (by decide)⟩

/-! ### URL-resolution lemmas -/

theorem extract_some_split : ∀ (parts : List String) (aid : String),
    extractAwemeId parts = some aid →
    ∃ l1 l2, parts = l1 ++ "video" :: aid :: l2 := by
  intro parts
  induction parts with
  | nil => intro aid h; simp [extractAwemeId] at h
  | cons p rest ih =>
    intro aid h
    by_cases hp : p = "video"
    · subst hp
      cases rest with
      | nil => simp [extractAwemeId] at h
      | cons x l2 =>
        simp [extractAwemeId] at h
        subst h
        exact ⟨[], l2, rfl⟩
    · simp only [extractAwemeId, if_neg hp] at h
      obtain ⟨l1, l2, hsplit⟩ := ih aid h
      exact ⟨p :: l1, l2, by rw [List.cons_append, ← hsplit]⟩

theorem extract_isSome_iff : ∀ parts : List String,
    (extractAwemeId parts).isSome ↔
      ∃ l1 aid l2, parts = l1 ++ "video" :: aid :: l2 := by
  intro parts
  induction parts with
  | nil =>
    constructor
    · intro h; simp [extractAwemeId] at h
    · rintro ⟨l1, aid, l2, h⟩
      have hlen := congrArg List.length h
      simp only [List.length_nil, List.length_append, List.length_cons] at hlen
      omega
  | cons p rest ih =>
    by_cases hp : p = "video"
    · subst hp
      cases rest with
      | nil =>
        constructor
        · intro h; simp [extractAwemeId] at h
        · rintro ⟨l1, aid, l2, h⟩
          have hlen := congrArg List.length h
          simp only [List.length_cons, List.length_nil, List.length_append]
            at hlen
          omega
      | cons x l2 =>
        constructor
        · intro _h
          exact ⟨[], x, l2, rfl⟩
        · intro _h
          simp [extractAwemeId]
    · constructor
      · intro h
        have h2 : (extractAwemeId rest).isSome := by
          simpa [extractAwemeId, hp] using h
        obtain ⟨l1, aid, l2, hsplit⟩ := ih.mp h2
        exact ⟨p :: l1, aid, l2, by rw [List.cons_append, ← hsplit]⟩
      · rintro ⟨l1, aid, l2, hsplit⟩
        cases l1 with
        | nil =>
          simp only [List.nil_append, List.cons.injEq] at hsplit
          exact absurd hsplit.1 hp
        | cons a l1t =>
          simp only [List.cons_append, List.cons.injEq] at hsplit
          obtain ⟨hpa, hrest⟩ := hsplit
          have h2 := ih.mpr ⟨l1t, aid, l2, hrest⟩
          simpa [extractAwemeId, hp] using h2

theorem extract_mem_parts : ∀ (parts : List String) (aid : String),
    extractAwemeId parts = some aid → aid ∈ parts := by
  intro parts aid h
  obtain ⟨l1, l2, hsplit⟩ := extract_some_split parts aid h
  rw [hsplit]
  exact List.mem_append_right _
    (List.mem_cons_of_mem _ (List.mem_cons_self _ _))

theorem pathSegments_ne_empty (url : String) :
    ∀ s ∈ pathSegments url, s ≠ "" := by
  intro s hs
  have h := List.of_mem_filter hs
  simpa using h

theorem extract_path_ne_empty (url aid : String)
    (h : extractAwemeId (pathSegments url) = some aid) : aid ≠ "" :=
  pathSegments_ne_empty url aid (extract_mem_parts _ aid h)

/-- `from_url` answers `IdentifierNotFound` exactly when no segment of
the final URL's path is the literal `"video"` followed by another
segment (the empty-identifier fallback of `if not aweme_id:` can never
fire, because path segments are filtered non-empty). -/
theorem from_url_identifier_not_found (final : String)
    (aux : Option (List String)) (hd : List (String × String)) :
    from_url (some final) aux hd = .error .IdentifierNotFound ↔
      extractAwemeId (pathSegments final) = none := by
  cases hex : extractAwemeId (pathSegments final) with
  | none => simp [from_url, hex]
  | some aid =>
    have hne : aid ≠ "" := extract_path_ne_empty final aid hex
    simp [from_url, hex, hne]

/-- **C7.**  URL resolution parses the final resolved URL's path into
`/`-separated segments, takes the identifier as the segment immediately
following a `"video"` segment and fails with `IdentifierNotFound`
exactly when no such adjacent pair exists; on success the SD and HD URLs
are the two fixed templates over the identifier — both ending in
`<content_id>.mp4` and differing only in the `play`/`hdplay` segment —
and a failed auxiliary gallery lookup degrades to an empty image list.
The spec's example URL resolves to `"7123456789012345678"`. -/
theorem c7_url_resolution :
    extractAwemeId (pathSegments c7Url) = some "7123456789012345678" ∧
    (∀ (final : String) (aux : Option (List String))
        (hd : List (String × String)),
      from_url (some final) aux hd = .error .IdentifierNotFound ↔
        extractAwemeId (pathSegments final) = none) ∧
    (∀ parts : List String,
      (extractAwemeId parts).isSome ↔
        ∃ l1 aid l2, parts = l1 ++ "video" :: aid :: l2) ∧
    (∀ (parts : List String) (aid : String),
      extractAwemeId parts = some aid →
      ∃ l1 l2, parts = l1 ++ "video" :: aid :: l2) ∧
    (∀ aid : String,
      playUrl aid = URL_BASE ++ ("play/" ++ (aid ++ ".mp4")) ∧
        hdplayUrl aid = URL_BASE ++ ("hdplay/" ++ (aid ++ ".mp4"))) ∧
    (∀ (fo : Option String) (aux : Option (List String))
        (hd : List (String × String)) (link : ResolvedLink)
        (hd2 : List (String × String)),
      from_url fo aux hd = .ok (link, hd2) →
      link.play_url = playUrl link.aweme_id ∧
        link.hd_url = hdplayUrl link.aweme_id) ∧
    (∀ (final : String) (hd : List (String × String)) (link : ResolvedLink)
        (hd2 : List (String × String)),
      from_url (some final) none hd = .ok (link, hd2) → link.images = []) ∧
    (∀ (aux : Option (List String)) (hd : List (String × String)),
      from_url none aux hd = .error .ResolutionFailed) ∧
    (playUrl "7123456789012345678" =
        "https://www.tikwm.com/video/media/play/" ++
          "7123456789012345678.mp4" ∧
      hdplayUrl "7123456789012345678" =
        "https://www.tikwm.com/video/media/hdplay/" ++
          "7123456789012345678.mp4") := by
  refine ⟨by decide, from_url_identifier_not_found, extract_isSome_iff,
    extract_some_split, fun aid => ⟨rfl, rfl⟩, ?_, ?_, fun aux hd => rfl,
    rfl, rfl⟩
  · intro fo aux hd link hd2 h
    obtain ⟨final, hfo, hex, hplay, hhdurl, him, hhd2⟩ :=
      from_url_ok fo aux hd link hd2 h
    exact ⟨hplay, hhdurl⟩
  · intro final hd link hd2 h
    obtain ⟨final2, hfo, hex, hplay, hhdurl, him, hhd2⟩ :=
      from_url_ok (some final) none hd link hd2 h
    simpa using him

/-- Witness for C7: the example URL resolves with an empty image list
when the auxiliary lookup fails, and its playback URLs are the two
templates. -/
theorem c7_witness :
    c7Link.images = [] ∧
      (c7Link.play_url = playUrl c7Link.aweme_id ∧
        c7Link.hd_url = hdplayUrl c7Link.aweme_id) :=
  ⟨c7_url_resolution.2.2.2.2.2.2.1 c7Url []
      c7Link [("7123456789012345678", hdplayUrl "7123456789012345678")]
      (by rfl),
    c7_url_resolution.2.2.2.2.2.1 (some c7Url) none []
      c7Link [("7123456789012345678", hdplayUrl "7123456789012345678")]
      (by rfl)⟩

end Bop
